import Mathlib

/-!
Verification of the commit-filtering engine (async commit filterer,
windowed log cache) against its natural-language specification.

Strings from the source are modelled as `List Char`; Rust's
`str::contains` becomes `strContains`, `str::to_lowercase` becomes a
per-character `Char.toLower` map.  Machine integers are modelled as `Nat`
with saturating arithmetic made explicit where the source uses it.
-/

/-- `strStartsWith pat s` : does `s` start with `pat`?  (Helper for
substring containment.) -/
def strStartsWith : List Char → List Char → Bool
  | [], _ => true
  | _ :: _, [] => false
  | p :: ps, c :: cs => p == c && strStartsWith ps cs

/-- Model of Rust `str::contains`: some suffix of `s` starts with `pat`. -/
def strContains : List Char → List Char → Bool
  | [], pat => pat.isEmpty
  | c :: rest, pat => strStartsWith pat (c :: rest) || strContains rest pat

/-- Model of Rust `str::to_lowercase` (per-character simple lowering). -/
def toLowerStr (s : List Char) : List Char := s.map Char.toLower

/-- Model of `asyncgit::sync::CommitInfo`: the fields the filter reads.
The commit id is kept in its string form, since the source only uses
`commit.id.to_string()` and as a lookup key for tags. -/
structure CommitInfo where
  id : List Char
  author : List Char
  message : List Char
  deriving DecidableEq, Repr

/-- Model of `asyncgit::sync::Tags`: a map from commit id to the list of
tag names on that commit (an association list). -/
def Tags : Type := List (List Char × List (List Char))

instance : DecidableEq Tags := by unfold Tags; infer_instance

/-- `Tags::get(&commit.id)`: first association-list hit. -/
def tagsGet : Tags → List Char → Option (List (List Char))
  | [], _ => none
  | (k, v) :: rest, id => if k == id then some v else tagsGet rest id

/-- Model of the `FilterBy` bitflags: one Bool per flag;
`filter.contains(FilterBy::X)` becomes field access. -/
structure FilterBy where
  sha : Bool
  author : Bool
  message : Bool
  isNot : Bool
  caseSensitive : Bool
  tags : Bool
  deriving DecidableEq, Repr

namespace AsyncCommitFilterer

/-- One clause evaluation: the body of the inner `for (s, filter)` loop of
`AsyncCommitFilterer::filter`, transcribed branch by branch
(`case_sensitive` × `not`); `map_or` chains become `match`es. -/
def clauseEval (tags : Option Tags) (commit : CommitInfo) (s : List Char)
    (filter : FilterBy) : Bool :=
  if filter.caseSensitive then
    if filter.isNot then
      (filter.tags &&
        (match tags with
         | none => false
         | some t =>
           match tagsGet t commit.id with
           | none => true
           | some commitTags =>
             decide (0 < (commitTags.filter
               (fun tag => !(strContains tag s))).length)))
      || (filter.sha && !(strContains commit.id s))
      || (filter.author && !(strContains commit.author s))
      || (filter.message && !(strContains commit.message s))
    else
      (filter.tags &&
        (match tags with
         | none => false
         | some t =>
           match tagsGet t commit.id with
           | none => false
           | some commitTags =>
             decide (0 < (commitTags.filter
               (fun tag => strContains tag s)).length)))
      || (filter.sha && strContains commit.id s)
      || (filter.author && strContains commit.author s)
      || (filter.message && strContains commit.message s)
  else
    if filter.isNot then
      (filter.tags &&
        (match tags with
         | none => false
         | some t =>
           match tagsGet t commit.id with
           | none => true
           | some commitTags =>
             decide (0 < (commitTags.filter
               (fun tag => !(strContains (toLowerStr tag) (toLowerStr s)))).length)))
      || (filter.sha && !(strContains (toLowerStr commit.id) (toLowerStr s)))
      || (filter.author && !(strContains (toLowerStr commit.author) (toLowerStr s)))
      || (filter.message && !(strContains (toLowerStr commit.message) (toLowerStr s)))
    else
      (filter.tags &&
        (match tags with
         | none => false
         | some t =>
           match tagsGet t commit.id with
           | none => false
           | some commitTags =>
             decide (0 < (commitTags.filter
               (fun tag => strContains (toLowerStr tag) (toLowerStr s))).length)))
      || (filter.sha && strContains (toLowerStr commit.id) (toLowerStr s))
      || (filter.author && strContains (toLowerStr commit.author) (toLowerStr s))
      || (filter.message && strContains (toLowerStr commit.message) (toLowerStr s))

/-- The `for to_and in filter_strings` body: `let mut is_and = true;` then
each clause REASSIGNS `is_and` (the source has `is_and = ...`, not a
conjunction), so the fold discards the accumulator. -/
def groupEval (tags : Option Tags) (commit : CommitInfo)
    (toAnd : List (List Char × FilterBy)) : Bool :=
  toAnd.foldl (fun _ p => clauseEval tags commit p.1 p.2) true

/-- The whole closure passed to `.filter(...)`: return true on the first
group whose `is_and` is true, else false. -/
def commitMatches (tags : Option Tags)
    (filterStrings : List (List (List Char × FilterBy)))
    (commit : CommitInfo) : Bool :=
  filterStrings.any (fun toAnd => groupEval tags commit toAnd)

/-- `AsyncCommitFilterer::filter`. -/
def filter (vecCommitInfo : List CommitInfo) (tags : Option Tags)
    (filterStrings : List (List (List Char × FilterBy)))
    : List CommitInfo :=
  vecCommitInfo.filter (fun commit => commitMatches tags filterStrings commit)

end AsyncCommitFilterer

/-- Modelled from the spec: a combining character, as in "never splitting
a combining character" (scenario C).  We take the Unicode combining
diacritical marks block U+0300–U+036F, which covers the spec's examples
(acute accent U+0301, diaeresis U+0308). -/
def isCombining (c : Char) : Bool := 0x300 ≤ c.toNat && c.toNat ≤ 0x36F

/-- Fuel-indexed grapheme segmentation: a cluster is a character together
with the run of combining characters that follows it.  The fuel makes the
recursion structural; `graphemeClusters` supplies enough fuel. -/
def clustersF : Nat → List Char → List (List Char)
  | _, [] => []
  | 0, _ :: _ => []
  | fuel + 1, c :: rest =>
    (c :: rest.takeWhile isCombining)
      :: clustersF fuel (rest.dropWhile isCombining)

/-- Modelled from the spec: the grapheme clusters of a string
("user-perceived characters, possibly composed of multiple underlying
code points"), simplified to base character plus following combining
marks. -/
def graphemeClusters (s : List Char) : List (List Char) :=
  clustersF s.length s

/-- Modelled from the spec: the `unicode-truncate` crate used by
`get_filter_items` is not part of this repository; per the spec's words it
truncates a message "to `truncate_len` measured in user-perceived
characters (grapheme clusters), never splitting a multi-codepoint
cluster": keep the first `n` grapheme clusters. -/
def unicodeTruncate (s : List Char) (n : Nat) : List Char :=
  ((graphemeClusters s).take n).flatten

/-- The body of the `for c in &mut commits_requested` loop of
`get_filter_items`: replace the message by its truncation. -/
def truncCommitMsg (limit : Nat) (c : CommitInfo) : CommitInfo :=
  { c with message := unicodeTruncate c.message limit }

/-- `usize::MAX`, i.e. `2 ^ 64 - 1`. -/
def USIZE_MAX : Nat := 18446744073709551615

/-- Plain (unchecked) `usize` addition: wraps modulo `2 ^ 64` in release
builds; debug builds panic on overflow instead (at every input where the
two profiles differ here, the wrapped value feeds an operation that
panics anyway, so the modelled outcome coincides). -/
def wrapAdd (a b : Nat) : Nat := (a + b) % (USIZE_MAX + 1)

namespace AsyncCommitFilterer

/-- `AsyncCommitFilterer::get_filter_items`, acting on the contents of the
successfully locked `filtered_commits` buffer: clamp, slice `[min..max]`,
copy, truncate each message.  `let max = min + amount` is a plain `usize`
addition, so when `min + amount` overflows, `max` wraps below `min`
(release) and the slice `fc[min..max]` panics — debug builds panic already
at the addition; both failure modes are modelled as `none`. -/
def get_filter_items (filteredCommits : List CommitInfo)
    (start amount messageLengthLimit : Nat) : Option (List CommitInfo) :=
  let len := filteredCommits.length
  let mn := min start len
  let mx := min (wrapAdd mn amount) len
  if mn ≤ mx then
    some (((filteredCommits.take mx).drop mn).map
      (truncCommitMsg messageLengthLimit))
  else none

end AsyncCommitFilterer

/-- Modelled from the spec: the intended disjunctive-normal-form
evaluation of section 4.1 — "the group is satisfied only if all its
clauses are satisfied; the expression is satisfied if any group is
satisfied".  Used only to compare against the source's `filter`. -/
def dnfMatchesSpec (tags : Option Tags)
    (filterStrings : List (List (List Char × FilterBy)))
    (commit : CommitInfo) : Bool :=
  filterStrings.any (fun toAnd =>
    toAnd.all (fun p => AsyncCommitFilterer.clauseEval tags commit p.1 p.2))

/-- A flag set selecting only the message field (no modifiers). -/
def msgOnly : FilterBy :=
  { sha := false, author := false, message := true,
    isNot := false, caseSensitive := false, tags := false }

/-- Example commit used as the failing input for the AND-group claim. -/
def cAbc : CommitInfo :=
  { id := ['i'], author := ['a'], message := ['a', 'b', 'c'] }

/-- C1: the spec claims each AND-group is a conjunction of its clauses.
The source instead reassigns `is_and` from each clause in turn, so a
multi-clause group takes the value of its last clause alone.  Failing
input: commit with message "abc" against the single group
[("zzz", message), ("abc", message)]: the first clause is false, so a
conjunction rejects the commit, yet the code keeps it. -/
theorem c1_filter_group_not_conjunction :
    AsyncCommitFilterer.filter [cAbc] none
        [[(['z', 'z', 'z'], msgOnly), (['a', 'b', 'c'], msgOnly)]]
      = [cAbc]
    ∧ dnfMatchesSpec none
        [[(['z', 'z', 'z'], msgOnly), (['a', 'b', 'c'], msgOnly)]] cAbc
      = false := by
  constructor
  · rfl
  · rfl

/-- C3: `filter` is `List.filter` of the match predicate, hence a
sublist of its input: order-preserving, no duplicates or new elements
introduced. -/
theorem c3_filter_sublist (vecCommitInfo : List CommitInfo)
    (tags : Option Tags)
    (filterStrings : List (List (List Char × FilterBy))) :
    List.Sublist
      (AsyncCommitFilterer.filter vecCommitInfo tags filterStrings)
      vecCommitInfo :=
  List.filter_sublist vecCommitInfo

/-- C9: filtering twice with the same expression and tag snapshot gives
the same list as filtering once. -/
theorem c9_filter_idempotent (vecCommitInfo : List CommitInfo)
    (tags : Option Tags)
    (filterStrings : List (List (List Char × FilterBy))) :
    AsyncCommitFilterer.filter
        (AsyncCommitFilterer.filter vecCommitInfo tags filterStrings)
        tags filterStrings
      = AsyncCommitFilterer.filter vecCommitInfo tags filterStrings := by
  unfold AsyncCommitFilterer.filter
  rw [List.filter_filter]
  simp

/-- C10: an empty expression (no AND-groups) makes the match predicate
return false for every commit, so `filter` returns the empty list. -/
theorem c10_filter_empty_expression (vecCommitInfo : List CommitInfo)
    (tags : Option Tags) :
    AsyncCommitFilterer.filter vecCommitInfo tags [] = [] := by
  unfold AsyncCommitFilterer.filter AsyncCommitFilterer.commitMatches
  simp

/-- Counterexample to C6 as stated: the slice indices are NOT in bounds
for every `start` and `amount`.  On a one-record buffer with `start = 1`
and `amount = usize::MAX`, the plain addition `min + amount` overflows:
debug builds panic at the addition; release builds wrap `max` to 0 and
the slice `fc[1..0]` panics.  The call produces no slice at all. -/
theorem c6_get_filter_items_overflow_counterexample :
    AsyncCommitFilterer.get_filter_items [cAbc] 1 USIZE_MAX 0 = none := by
  decide

/-- C6 (amended): provided the clamped lower bound plus `amount` does not
overflow `usize`, the slice taken by `get_filter_items` is
`[min(start,len), min(min(start,len)+amount,len))`: the lower bound never
exceeds the upper bound, the upper bound never exceeds the buffer length
(so the slice is in bounds, even for `start > len` or `start + amount`
past `len`), and the call succeeds with exactly that clamped slice of the
buffer (each record copied, with its message truncated per the third
argument). -/
theorem c6_get_filter_items_slice (fc : List CommitInfo)
    (start amount limit : Nat)
    (hNoOverflow : min start fc.length + amount ≤ USIZE_MAX) :
    min start fc.length
      ≤ min (min start fc.length + amount) fc.length
    ∧ min (min start fc.length + amount) fc.length ≤ fc.length
    ∧ AsyncCommitFilterer.get_filter_items fc start amount limit
        = some (((fc.drop start).take amount).map (truncCommitMsg limit))
    := by
  have hwrap : wrapAdd (min start fc.length) amount
      = min start fc.length + amount := by
    simp only [USIZE_MAX] at hNoOverflow
    simp only [wrapAdd, USIZE_MAX]
    omega
  refine ⟨?_, Nat.min_le_right _ _, ?_⟩
  · exact Nat.le_min.mpr ⟨Nat.le_add_right _ _, Nat.min_le_right _ _⟩
  · have hle : min start fc.length
        ≤ min (wrapAdd (min start fc.length) amount) fc.length := by
      rw [hwrap]
      exact Nat.le_min.mpr ⟨Nat.le_add_right _ _, Nat.min_le_right _ _⟩
    show (if min start fc.length
          ≤ min (wrapAdd (min start fc.length) amount) fc.length
        then some (((fc.take
            (min (wrapAdd (min start fc.length) amount)
              fc.length)).drop (min start fc.length)).map
          (truncCommitMsg limit))
        else none)
      = some (((fc.drop start).take amount).map (truncCommitMsg limit))
    rw [if_pos hle, hwrap]
    congr 1
    rcases Nat.le_total fc.length start with h | h
    · rw [Nat.min_eq_right h, Nat.min_eq_right (Nat.le_add_right _ _),
        List.take_length, List.drop_eq_nil_of_le (le_of_eq rfl),
        List.drop_eq_nil_of_le h]
      simp
    · rw [Nat.min_eq_left h, List.drop_take]
      congr 1
      rw [List.take_eq_take]
      simp only [List.length_drop]
      omega

/-- Witness for the amended C6: a small in-domain request on a one-record
buffer succeeds with the clamped slice. -/
theorem c6_get_filter_items_slice_witness :
    AsyncCommitFilterer.get_filter_items [cAbc] 0 5 3
      = some (((([cAbc] : List CommitInfo).drop 0).take 5).map
          (truncCommitMsg 3)) :=
  (c6_get_filter_items_slice [cAbc] 0 5 3 (by decide)).2.2

/-- Condition "the tag name contains the pattern", with the
case-sensitivity handling the source applies in each branch. -/
def patContains (caseSensitive : Bool) (name s : List Char) : Bool :=
  if caseSensitive then strContains name s
  else strContains (toLowerStr name) (toLowerStr s)

/-- C4: for a clause selecting only the `tags` field with `negate` set,
against a commit the supplied tag snapshot maps to the tag set `T`, the
clause is true iff at least one tag name in `T` fails to contain the
pattern (not the stronger "no tag contains the pattern"). -/
theorem c4_tag_negation_one_failing_tag (t : Tags) (commit : CommitInfo)
    (s : List Char) (f : FilterBy) (T : List (List Char))
    (hTags : f.tags = true) (hNeg : f.isNot = true)
    (hSha : f.sha = false) (hAuthor : f.author = false)
    (hMessage : f.message = false)
    (hGet : tagsGet t commit.id = some T) :
    AsyncCommitFilterer.clauseEval (some t) commit s f = true
      ↔ ∃ name ∈ T, patContains f.caseSensitive name s = false := by
  obtain ⟨fSha, fAuthor, fMessage, fNot, fCS, fTags⟩ := f
  simp only at hTags hNeg hSha hAuthor hMessage
  subst hTags hNeg hSha hAuthor hMessage
  cases fCS with
  | true =>
    simp only [AsyncCommitFilterer.clauseEval, hGet, patContains,
      if_true, Bool.true_and, Bool.false_and, Bool.or_false,
      decide_eq_true_eq, ← List.countP_eq_length_filter,
      List.countP_pos_iff, Bool.not_eq_true']
  | false =>
    simp only [AsyncCommitFilterer.clauseEval, hGet, patContains,
      Bool.false_eq_true, if_false, if_true, Bool.true_and,
      Bool.false_and, Bool.or_false, decide_eq_true_eq,
      ← List.countP_eq_length_filter, List.countP_pos_iff,
      Bool.not_eq_true']

/-- Clause flags: tags field, negate, case sensitive. -/
def fTagNotCS : FilterBy :=
  { sha := false, author := false, message := false,
    isNot := true, caseSensitive := true, tags := true }

/-- Tag snapshot mapping commit "i" to tags "a" and "b". -/
def tagsEx : Tags := [(['i'], [['a'], ['b']])]

/-- Commit "i" with no author or message. -/
def cTagEx : CommitInfo := { id := ['i'], author := [], message := [] }

/-- Witness for C4: tag "b" fails to contain the pattern "a", so the
negated tag clause is true for commit "i" even though tag "a" does
contain the pattern. -/
theorem c4_tag_negation_one_failing_tag_witness :
    AsyncCommitFilterer.clauseEval (some tagsEx) cTagEx ['a'] fTagNotCS
      = true :=
  (c4_tag_negation_one_failing_tag tagsEx cTagEx ['a'] fTagNotCS
      [['a'], ['b']] rfl rfl rfl rfl rfl rfl).mpr
    ⟨['b'], by decide, by decide⟩

/-- Model of `LogEntry` (windowed log cache entry).  The `time` and
`hash_short` fields are produced by external formatting helpers
(`time_to_string`, `CommitId::get_short_string`) and play no role in any
claim, so only the fields copied verbatim are kept. -/
structure LogEntry where
  author : List Char
  msg : List Char
  deriving DecidableEq, Repr

/-- `LogEntry::from(CommitInfo)` (the copied fields). -/
def LogEntry.ofCommit (c : CommitInfo) : LogEntry :=
  { author := c.author, msg := c.message }

/-- `SLICE_OFFSET_RELOAD_THRESHOLD` (the reload margin). -/
def SLICE_OFFSET_RELOAD_THRESHOLD : Nat := 100

/-- `usize::saturating_sub` (Nat subtraction already saturates at 0). -/
def satSub (a b : Nat) : Nat := a - b

/-- `usize::saturating_add`. -/
def satAdd (a b : Nat) : Nat := min (a + b) USIZE_MAX

/-- Model of `ItemBatch`. -/
structure ItemBatch where
  index_offset : Nat
  items : List LogEntry
  deriving DecidableEq, Repr

namespace ItemBatch

/-- `ItemBatch::last_idx`: a plain (unchecked) `usize` addition, so it
wraps in release builds when `index_offset + len` overflows (debug builds
panic there instead). -/
def last_idx (b : ItemBatch) : Nat := wrapAdd b.index_offset b.items.length

/-- `ItemBatch::set_items`: clear, extend with the converted records, set
the offset. -/
def set_items (b : ItemBatch) (start_index : Nat)
    (commits : List CommitInfo) : ItemBatch :=
  { b with
    items := commits.map LogEntry.ofCommit,
    index_offset := start_index }

/-- `ItemBatch::needs_data`. -/
def needs_data (b : ItemBatch) (idx idx_max : Nat) : Bool :=
  let want_min := satSub idx SLICE_OFFSET_RELOAD_THRESHOLD
  let want_max := min (satAdd idx SLICE_OFFSET_RELOAD_THRESHOLD) idx_max
  let needs_data_top := decide (want_min < b.index_offset)
  let needs_data_bottom := decide (want_max ≥ b.last_idx)
  needs_data_bottom || needs_data_top

end ItemBatch

/-- Counterexample to C7 as stated: at `offset = usize::MAX - 100` with
`L = 201` records, `idx = usize::MAX` lies inside the claim's
margin-protected interval `[offset+margin, offset+L-1-margin]` (all of
the claim's premises hold, with `max = 1000`), yet `needs_data` returns
true: in release builds `last_idx` wraps to 100 and
`want_max = 1000 ≥ 100` (debug builds panic at the addition). -/
theorem c7_needs_data_overflow_counterexample :
    2 * SLICE_OFFSET_RELOAD_THRESHOLD ≤ (List.replicate 201 cAbc).length
    ∧ (USIZE_MAX - 100) + SLICE_OFFSET_RELOAD_THRESHOLD ≤ USIZE_MAX
    ∧ USIZE_MAX ≤ (USIZE_MAX - 100) + (List.replicate 201 cAbc).length
        - 1 - SLICE_OFFSET_RELOAD_THRESHOLD
    ∧ ((ItemBatch.mk 0 []).set_items (USIZE_MAX - 100)
        (List.replicate 201 cAbc)).needs_data USIZE_MAX 1000 = true := by
  refine ⟨?_, ?_, ?_, ?_⟩
  · simp only [SLICE_OFFSET_RELOAD_THRESHOLD, List.length_replicate]
    omega
  · simp only [SLICE_OFFSET_RELOAD_THRESHOLD, USIZE_MAX]
    omega
  · simp only [SLICE_OFFSET_RELOAD_THRESHOLD, USIZE_MAX,
      List.length_replicate]
    omega
  · simp only [ItemBatch.needs_data, ItemBatch.set_items,
      ItemBatch.last_idx, wrapAdd, satSub, satAdd,
      SLICE_OFFSET_RELOAD_THRESHOLD, USIZE_MAX, List.length_map,
      List.length_replicate, Bool.or_eq_true, decide_eq_true_eq,
      ge_iff_le]
    omega

/-- C7 (amended): after `set_items(offset, records)` with
`records.length = L ≥ 2·margin` (margin = 100) and no overflow in
`last_idx` (`offset + L ≤ usize::MAX`), `needs_data idx max` is false for
every `idx` in `[offset+margin, offset+L-1-margin]`, true at
`idx = offset-1` when `offset > 0`, and true at `idx = offset+L` when
`offset+L ≤ max`. -/
theorem c7_needs_data_after_set_items (b : ItemBatch) (offset : Nat)
    (records : List CommitInfo) (maxIdx : Nat)
    (hL : 2 * SLICE_OFFSET_RELOAD_THRESHOLD ≤ records.length)
    (hNoOverflow : offset + records.length ≤ USIZE_MAX) :
    (∀ idx, offset + SLICE_OFFSET_RELOAD_THRESHOLD ≤ idx →
      idx ≤ offset + records.length - 1 - SLICE_OFFSET_RELOAD_THRESHOLD →
      (b.set_items offset records).needs_data idx maxIdx = false)
    ∧ (0 < offset →
      (b.set_items offset records).needs_data (offset - 1) maxIdx = true)
    ∧ (offset + records.length ≤ maxIdx →
      (b.set_items offset records).needs_data
          (offset + records.length) maxIdx = true) := by
  simp only [SLICE_OFFSET_RELOAD_THRESHOLD, USIZE_MAX]
    at hL hNoOverflow ⊢
  refine ⟨?_, ?_, ?_⟩
  · intro idx h1 h2
    simp only [ItemBatch.needs_data, ItemBatch.set_items,
      ItemBatch.last_idx, wrapAdd, satSub, satAdd,
      SLICE_OFFSET_RELOAD_THRESHOLD, USIZE_MAX, List.length_map,
      Bool.or_eq_false_iff, decide_eq_false_iff_not, not_lt, not_le,
      ge_iff_le]
    omega
  · intro h
    simp only [ItemBatch.needs_data, ItemBatch.set_items,
      ItemBatch.last_idx, wrapAdd, satSub, satAdd,
      SLICE_OFFSET_RELOAD_THRESHOLD, USIZE_MAX, List.length_map,
      Bool.or_eq_true, decide_eq_true_eq, ge_iff_le]
    omega
  · intro h
    simp only [ItemBatch.needs_data, ItemBatch.set_items,
      ItemBatch.last_idx, wrapAdd, satSub, satAdd,
      SLICE_OFFSET_RELOAD_THRESHOLD, USIZE_MAX, List.length_map,
      Bool.or_eq_true, decide_eq_true_eq, ge_iff_le]
    omega

set_option maxRecDepth 8000 in
/-- Witness for C7 at offset 1 with 300 records and `max = 500`:
`needs_data` is false at 150 (inside the margin-protected range
`[101, 200]`), true at 0 (= offset-1), and true at 301 (= offset+L). -/
theorem c7_needs_data_after_set_items_witness :
    ((ItemBatch.mk 0 []).set_items 1
        (List.replicate 300 cAbc)).needs_data 150 500 = false
    ∧ ((ItemBatch.mk 0 []).set_items 1
        (List.replicate 300 cAbc)).needs_data 0 500 = true
    ∧ ((ItemBatch.mk 0 []).set_items 1
        (List.replicate 300 cAbc)).needs_data 301 500 = true := by
  have h := c7_needs_data_after_set_items (ItemBatch.mk 0 []) 1
    (List.replicate 300 cAbc) 500
    (by simp only [SLICE_OFFSET_RELOAD_THRESHOLD,
          List.length_replicate]; omega)
    (by simp only [USIZE_MAX, List.length_replicate]; omega)
  refine ⟨h.1 150 ?_ ?_, h.2.1 (by omega), h.2.2 ?_⟩
  · simp only [SLICE_OFFSET_RELOAD_THRESHOLD]
    omega
  · simp only [SLICE_OFFSET_RELOAD_THRESHOLD, List.length_replicate]
    omega
  · simp only [List.length_replicate]
    omega

/-- Observable engine state used by the `start_filter` error-path claim:
the shared result buffer, the match counter, and the two flags touched
synchronously. -/
structure EngineState where
  filtered_commits : List CommitInfo
  filter_count : Nat
  filter_finished : Bool
  is_pending_local : Bool
  deriving DecidableEq, Repr

namespace AsyncCommitFilterer

/-- `AsyncCommitFilterer::get_tags`: the double loop with early breaks
sets `contains_tags` exactly when some clause has the TAGS flag; only
then is `git_tags.last()` consulted (its outcome is passed in as
`gitTagsLast`). -/
def get_tags (filterStrings : List (List (List Char × FilterBy)))
    (gitTagsLast : Except Unit (Option Tags)) :
    Except Unit (Option Tags) :=
  let containsTags :=
    filterStrings.any (fun or => or.any (fun p => p.2.tags))
  if containsTags then gitTagsLast else Except.ok none

/-- `AsyncCommitFilterer::stop_filter`: its effect on the observable
state (the channel send has no state effect here). -/
def stop_filter (st : EngineState) : EngineState :=
  { st with is_pending_local := false, filter_finished := true }

/-- The synchronous part of `AsyncCommitFilterer::start_filter`:
`stop_filter`, mark pending, fetch tags if required (`?` propagates the
failure), then hand the expression and snapshot to the spawned run.
Returns the call result, the state after the synchronous part, and the
run scheduled by this call (`none` when nothing was spawned). -/
def start_filter (st : EngineState)
    (filterStrings : List (List (List Char × FilterBy)))
    (gitTagsLast : Except Unit (Option Tags)) :
    Except Unit Unit × EngineState
      × Option (List (List (List Char × FilterBy)) × Option Tags) :=
  let st1 := stop_filter st
  let st2 := { st1 with is_pending_local := true }
  match get_tags filterStrings gitTagsLast with
  | Except.error e => (Except.error e, st2, none)
  | Except.ok tags => (Except.ok (), st2, some (filterStrings, tags))

end AsyncCommitFilterer

/-- C8: if some clause carries the `tags` selector and the tag snapshot
fetch fails, `start_filter` returns the error, schedules no background
run, and leaves the shared result buffer and match counter unchanged. -/
theorem c8_start_filter_tag_fetch_error (st : EngineState)
    (filterStrings : List (List (List Char × FilterBy)))
    (hTags : filterStrings.any (fun or => or.any (fun p => p.2.tags))
      = true) :
    (AsyncCommitFilterer.start_filter st filterStrings
        (Except.error ())).1 = Except.error ()
    ∧ (AsyncCommitFilterer.start_filter st filterStrings
        (Except.error ())).2.2 = none
    ∧ (AsyncCommitFilterer.start_filter st filterStrings
        (Except.error ())).2.1.filtered_commits = st.filtered_commits
    ∧ (AsyncCommitFilterer.start_filter st filterStrings
        (Except.error ())).2.1.filter_count = st.filter_count := by
  simp [AsyncCommitFilterer.start_filter, AsyncCommitFilterer.get_tags,
    AsyncCommitFilterer.stop_filter, hTags]

/-- Clause flags selecting only the tags field, no modifiers. -/
def fTagOnly : FilterBy :=
  { sha := false, author := false, message := false,
    isNot := false, caseSensitive := false, tags := true }

/-- Witness for C8: a single-clause expression filtering by tag, with a
failing tag fetch, on a state holding one buffered commit and count 1. -/
theorem c8_start_filter_tag_fetch_error_witness :
    (AsyncCommitFilterer.start_filter
        (EngineState.mk [cAbc] 1 false false) [[(['t'], fTagOnly)]]
        (Except.error ())).1 = Except.error ()
    ∧ (AsyncCommitFilterer.start_filter
        (EngineState.mk [cAbc] 1 false false) [[(['t'], fTagOnly)]]
        (Except.error ())).2.2 = none
    ∧ (AsyncCommitFilterer.start_filter
        (EngineState.mk [cAbc] 1 false false) [[(['t'], fTagOnly)]]
        (Except.error ())).2.1.filtered_commits = [cAbc]
    ∧ (AsyncCommitFilterer.start_filter
        (EngineState.mk [cAbc] 1 false false) [[(['t'], fTagOnly)]]
        (Except.error ())).2.1.filter_count = 1 :=
  c8_start_filter_tag_fetch_error
    (EngineState.mk [cAbc] 1 false false) [[(['t'], fTagOnly)]]
    (by decide)

/-- Dropping a while-prefix never lengthens a list. -/
theorem dropWhileLenLe {α : Type} (p : α → Bool) (l : List α) :
    (l.dropWhile p).length ≤ l.length := by
  induction l with
  | nil => simp
  | cons c r ih =>
    rw [List.dropWhile_cons]
    split
    · exact Nat.le_trans ih (Nat.le_succ _)
    · exact Nat.le_refl _

/-- `takeWhile` passes over a block that satisfies the predicate. -/
theorem takeWhileAppendAll {α : Type} (p : α → Bool) (l1 l2 : List α)
    (h : ∀ x ∈ l1, p x = true) :
    (l1 ++ l2).takeWhile p = l1 ++ l2.takeWhile p := by
  induction l1 with
  | nil => simp
  | cons c r ih =>
    rw [List.cons_append, List.takeWhile_cons, if_pos (h c (by simp)),
      ih (fun x hx => h x (by simp [hx])), List.cons_append]

/-- `dropWhile` removes a whole block that satisfies the predicate. -/
theorem dropWhileAppendAll {α : Type} (p : α → Bool) (l1 l2 : List α)
    (h : ∀ x ∈ l1, p x = true) :
    (l1 ++ l2).dropWhile p = l2.dropWhile p := by
  induction l1 with
  | nil => simp
  | cons c r ih =>
    rw [List.cons_append, List.dropWhile_cons, if_pos (h c (by simp))]
    exact ih (fun x hx => h x (by simp [hx]))

/-- A string whose head (if any) is not a combining character: the shape
of everything `dropWhile isCombining` leaves and of every flattened
cluster tail. -/
def headOkB : List Char → Bool
  | [] => true
  | c :: _ => !isCombining c

theorem takeWhileHeadOk (l : List Char) (h : headOkB l = true) :
    l.takeWhile isCombining = [] := by
  cases l with
  | nil => rfl
  | cons c r =>
    rw [List.takeWhile_cons, if_neg]
    simp only [headOkB, Bool.not_eq_true'] at h
    simp [h]

theorem dropWhileHeadOk (l : List Char) (h : headOkB l = true) :
    l.dropWhile isCombining = l := by
  cases l with
  | nil => rfl
  | cons c r =>
    rw [List.dropWhile_cons, if_neg]
    simp only [headOkB, Bool.not_eq_true'] at h
    simp [h]

theorem graphemeClustersNil : graphemeClusters [] = [] := rfl

theorem headOkBDropWhile (l : List Char) :
    headOkB (l.dropWhile isCombining) = true := by
  induction l with
  | nil => rfl
  | cons c r ih =>
    rw [List.dropWhile_cons]
    by_cases hcomb : isCombining c = true
    · rw [if_pos hcomb]
      exact ih
    · rw [if_neg hcomb]
      simp only [headOkB, Bool.not_eq_true']
      cases hcb : isCombining c with
      | true => exact absurd hcb hcomb
      | false => rfl

/-- `clustersF` does not depend on the fuel once it covers the length. -/
theorem clustersFFuel (f1 : Nat) : ∀ (f2 : Nat) (s : List Char),
    s.length ≤ f1 → s.length ≤ f2 → clustersF f1 s = clustersF f2 s := by
  induction f1 with
  | zero =>
    intro f2 s h1 _
    have hs : s = [] := List.length_eq_zero.mp (Nat.le_zero.mp h1)
    subst hs
    cases f2 <;> rfl
  | succ f ih =>
    intro f2 s h1 h2
    cases s with
    | nil => cases f2 <;> rfl
    | cons c rest =>
      cases f2 with
      | zero => simp at h2
      | succ f2' =>
        show (c :: rest.takeWhile isCombining)
              :: clustersF f (rest.dropWhile isCombining)
            = (c :: rest.takeWhile isCombining)
              :: clustersF f2' (rest.dropWhile isCombining)
        have hr1 : rest.length ≤ f := Nat.le_of_succ_le_succ h1
        have hr2 : rest.length ≤ f2' := Nat.le_of_succ_le_succ h2
        rw [ih f2' _
          (Nat.le_trans (dropWhileLenLe _ _) hr1)
          (Nat.le_trans (dropWhileLenLe _ _) hr2)]

/-- Unfolding equation of `graphemeClusters` on a cons cell. -/
theorem graphemeClustersCons (c : Char) (rest : List Char) :
    graphemeClusters (c :: rest)
      = (c :: rest.takeWhile isCombining)
        :: graphemeClusters (rest.dropWhile isCombining) := by
  show clustersF (rest.length + 1) (c :: rest) = _
  show (c :: rest.takeWhile isCombining)
      :: clustersF rest.length (rest.dropWhile isCombining) = _
  rw [clustersFFuel rest.length (rest.dropWhile isCombining).length _
    (dropWhileLenLe _ _) (Nat.le_refl _)]
  rfl

/-- The flattened first clusters of a head-ok string are head-ok. -/
theorem headOkBFlattenTake (s : List Char) (k : Nat)
    (h : headOkB s = true) :
    headOkB (((graphemeClusters s).take k).flatten) = true := by
  cases s with
  | nil => simp [graphemeClustersNil, headOkB]
  | cons c rest =>
    cases k with
    | zero => rfl
    | succ k' =>
      rw [graphemeClustersCons, List.take_succ_cons, List.flatten_cons]
      simpa [headOkB] using h

/-- Re-segmentation: the first `n` grapheme clusters of a string,
re-joined, segment back into exactly those clusters — so truncation keeps
clusters whole. -/
theorem graphemeClustersFlattenTake (N : Nat) : ∀ (s : List Char),
    s.length ≤ N → ∀ n,
    graphemeClusters (((graphemeClusters s).take n).flatten)
      = (graphemeClusters s).take n := by
  induction N with
  | zero =>
    intro s hs n
    have h : s = [] := List.length_eq_zero.mp (Nat.le_zero.mp hs)
    subst h
    cases n <;> rfl
  | succ N ih =>
    intro s hs n
    cases s with
    | nil => cases n <;> rfl
    | cons c rest =>
      cases n with
      | zero => rfl
      | succ n' =>
        rw [graphemeClustersCons, List.take_succ_cons, List.flatten_cons,
          List.cons_append, graphemeClustersCons]
        have htw : ∀ x ∈ rest.takeWhile isCombining, isCombining x = true :=
          fun x hx => List.mem_takeWhile_imp hx
        have hF : headOkB
            (((graphemeClusters (rest.dropWhile isCombining)).take
              n').flatten) = true :=
          headOkBFlattenTake _ _ (headOkBDropWhile rest)
        rw [takeWhileAppendAll _ _ _ htw, takeWhileHeadOk _ hF,
          dropWhileAppendAll _ _ _ htw, dropWhileHeadOk _ hF,
          List.append_nil]
        rw [ih (rest.dropWhile isCombining)
          (Nat.le_trans (dropWhileLenLe _ _) (Nat.le_of_succ_le_succ hs))
          n']

/-- C5: every record returned by `get_filter_items` carries the message
of some buffered record truncated to its first `truncate_len` grapheme
clusters: the truncated message segments into exactly the first
`truncate_len` clusters of the original (no cluster is ever split) and
so holds at most `truncate_len` clusters. -/
theorem c5_get_filter_items_grapheme_truncation (fc : List CommitInfo)
    (start amount n : Nat) (out : List CommitInfo) (c : CommitInfo)
    (hout : AsyncCommitFilterer.get_filter_items fc start amount n
      = some out)
    (hc : c ∈ out) :
    ∃ c0, c0 ∈ fc
      ∧ c.message = unicodeTruncate c0.message n
      ∧ graphemeClusters c.message
          = (graphemeClusters c0.message).take n
      ∧ (graphemeClusters c.message).length ≤ n := by
  have hout' : (if min start fc.length
        ≤ min (wrapAdd (min start fc.length) amount) fc.length
      then some (((fc.take
          (min (wrapAdd (min start fc.length) amount)
            fc.length)).drop (min start fc.length)).map
        (truncCommitMsg n))
      else none)
    = some out := hout
  by_cases hle : min start fc.length
      ≤ min (wrapAdd (min start fc.length) amount) fc.length
  case neg =>
    rw [if_neg hle] at hout'
    exact absurd hout' (by simp)
  case pos =>
  rw [if_pos hle] at hout'
  injection hout' with hout2
  subst hout2
  simp only [List.mem_map] at hc
  obtain ⟨c0, hc0mem, rfl⟩ := hc
  have hmem : c0 ∈ fc :=
    List.mem_of_mem_take (List.mem_of_mem_drop hc0mem)
  have hmsg : (truncCommitMsg n c0).message
      = unicodeTruncate c0.message n := rfl
  have hcl : graphemeClusters (unicodeTruncate c0.message n)
      = (graphemeClusters c0.message).take n := by
    unfold unicodeTruncate
    exact graphemeClustersFlattenTake c0.message.length c0.message
      (Nat.le_refl _) n
  refine ⟨c0, hmem, hmsg, by rw [hmsg, hcl], ?_⟩
  rw [hmsg, hcl, List.length_take]
  exact Nat.min_le_left _ _

/-- The spec's scenario C message "héllo wörld", with the accents as
combining code points (e + U+0301, o + U+0308): 13 code points, 11
grapheme clusters. -/
def helloMsg : List Char :=
  ['h', 'e', '́', 'l', 'l', 'o', ' ',
   'w', 'o', '̈', 'r', 'l', 'd']

/-- A commit whose message is "héllo wörld". -/
def helloCommit : CommitInfo :=
  { id := ['h'], author := ['a'], message := helloMsg }

/-- Witness for C5 on scenario C: requesting the record with display
limit 5 yields message "héllo" — exactly 5 grapheme clusters, with the
combining acute accent kept attached to its base "e". -/
theorem c5_get_filter_items_grapheme_truncation_witness :
    (∃ c0, c0 ∈ [helloCommit]
      ∧ (truncCommitMsg 5 helloCommit).message
          = unicodeTruncate c0.message 5
      ∧ graphemeClusters (truncCommitMsg 5 helloCommit).message
          = (graphemeClusters c0.message).take 5
      ∧ (graphemeClusters (truncCommitMsg 5 helloCommit).message).length
          ≤ 5)
    ∧ (truncCommitMsg 5 helloCommit).message
        = ['h', 'e', '́', 'l', 'l', 'o']
    ∧ (graphemeClusters (truncCommitMsg 5 helloCommit).message).length
        = 5 :=
  ⟨c5_get_filter_items_grapheme_truncation [helloCommit] 0 1 5
      [truncCommitMsg 5 helloCommit] (truncCommitMsg 5 helloCommit)
      (by decide) (by decide),
    by decide, by decide⟩
